import Mathlib

/-!
Verification of `polynomial_solver.js`: a shallow embedding of the solver's core
functions (exact fraction arithmetic, base decoding, Lagrange interpolation at
zero with the consecutive-position shortcut, and the top-level solve pipeline),
together with proofs of the specified properties.

JS `BigInt` values are modelled as `ℤ`; JS `/` and `%` on `BigInt` are truncated
division and remainder, modelled as `Int.tdiv` and `Int.tmod`.  Errors thrown by
the source are modelled as `Except SolveError` results, one constructor per
distinct `throw` site.
-/

namespace PolySolver

/-- Error conditions thrown by the source, one constructor per distinct
error message. -/
inductive SolveError
  | zeroDenominator
  | invalidBase
  | invalidDigit
  | needKPoints
  | duplicateX
  | nonInteger
  | insufficientPoints
  deriving DecidableEq

/-- `gcdBigInt` (lines 7-16): the `while` loop
`while (b ≠ 0) { (a, b) := (b, a % b) }` applied to the absolute values of the
arguments is Euclid's algorithm, i.e. `Nat.gcd` of the absolute values.
The loop itself is embedded below as `gcdLoop`, and
`gcdBigInt_eq_gcdLoop` proves this definition computes the same value. -/
def gcdBigInt (a b : ℤ) : ℤ := (Nat.gcd a.natAbs b.natAbs : ℤ)

/-- The literal loop of lines 10-14 on the (already absolute-valued)
operands: one iteration replaces `(a, b)` by `(b, a % b)` until `b = 0`. -/
def gcdLoop (a b : ℕ) : ℕ :=
  if h : b = 0 then a else gcdLoop b (a % b)
termination_by b
decreasing_by exact Nat.mod_lt _ (Nat.pos_of_ne_zero h)

/-- `simplifyFrac` (lines 18-23): reject a zero denominator, normalise the sign
into the numerator, and divide both components by their gcd.  The divisions
`num / g` and `den / g` are JS truncated divisions (`Int.tdiv`), exact here
because `g` divides both operands. -/
def simplifyFrac (num den : ℤ) : Except SolveError (ℤ × ℤ) :=
  if den = 0 then .error .zeroDenominator
  else
    let num' := if den < 0 then -num else num
    let den' := if den < 0 then -den else den
    let g := gcdBigInt (if num' < 0 then -num' else num') den'
    .ok (num'.tdiv g, den'.tdiv g)

/-- `addFrac` (lines 25-31): `(n1/d1) + (n2/d2)` by cross multiplication,
reduced by `simplifyFrac`. -/
def addFrac (n1 d1 n2 d2 : ℤ) : Except SolveError (ℤ × ℤ) :=
  simplifyFrac (n1 * d2 + n2 * d1) (d1 * d2)

/-- `mulFracBigInt` (lines 33-35): multiply a fraction by an integer,
reduced by `simplifyFrac`. -/
def mulFracBigInt (n d k : ℤ) : Except SolveError (ℤ × ℤ) :=
  simplifyFrac (n * k) d

/-- One iteration of the `binomBigInt` loop (lines 42-47), at loop counter
`i = i0 + 1`: multiply the numerator by `n - (i-1)` and the denominator by
`i`, then reduce the pair by its gcd (truncated divisions, exact here). -/
def binomStep (n : ℤ) (nd : ℤ × ℤ) (i0 : ℕ) : ℤ × ℤ :=
  let i : ℤ := (i0 : ℤ) + 1
  let num := nd.1 * (n - (i - 1))
  let den := nd.2 * i
  let g := gcdBigInt num den
  (num.tdiv g, den.tdiv g)

/-- `binomBigInt` (lines 38-49): binomial coefficient by the incremental
multiplicative formula.  The JS loop `for (i = 1n; i <= k; i++)` over the
state `(num, den)` is a fold of `binomStep` over `i = 1..min k (n-k)`.
The final `num / den` is a truncated division. -/
def binomBigInt (n k : ℤ) : ℤ :=
  if k < 0 ∨ n < k then 0
  else
    let p := (List.range (min k (n - k)).toNat).foldl (binomStep n) (1, 1)
    p.1.tdiv p.2

/-- The first character of `value[i].toLowerCase()` (line 58), JS Unicode
Default Case Conversion applied to a one-character string.  `'A'..'Z'` map
to their ASCII lowercase.  Beyond ASCII, the only code points whose Unicode
lowercase mapping begins with an ASCII character are U+212A KELVIN SIGN
(lowercases to `"k"`) and U+0130 LATIN CAPITAL LETTER I WITH DOT ABOVE
(lowercases to `"i"` followed by combining U+0307; the decoder's string
comparisons `ch >= 'a' && ch <= 'z'` and its `charCodeAt(0)` then see only
the leading `"i"`).  Every other character either has no lowercase mapping
or maps to a character that is neither in `'0'..'9'` nor in `'a'..'z'`, just
like the character itself, so the decoder classifies it identically; such
characters are therefore modelled as fixed points. -/
def jsToLower (c : Char) : Char :=
  if c = '\u212A' then 'k'
  else if c = '\u0130' then 'i'
  else c.toLower

/-- The per-character loop body of `baseToDecimal` (lines 57-65): lower-case
the character (`jsToLower`, the decoder-relevant part of JS `toLowerCase`),
map `'0'..'9'` to 0-9 and `'a'..'z'` to 10-35, reject anything else or any
digit `≥ base`, and accumulate `result * base + d`.  The digit string is
modelled as its list of Unicode scalar values; an astral character, two
lone surrogate code units to the JS loop, is one invalid character here and
an invalid character there, with the same resulting error. -/
def baseToDecimalGo (base : ℤ) : List Char → ℤ → Except SolveError ℤ
  | [], result => .ok result
  | ch0 :: rest, result =>
    let ch := jsToLower ch0
    if '0' ≤ ch ∧ ch ≤ '9' then
      let d : ℕ := ch.toNat - '0'.toNat
      if (d : ℤ) ≥ base then .error .invalidDigit
      else baseToDecimalGo base rest (result * base + (d : ℤ))
    else if 'a' ≤ ch ∧ ch ≤ 'z' then
      let d : ℕ := ch.toNat - 'a'.toNat + 10
      if (d : ℤ) ≥ base then .error .invalidDigit
      else baseToDecimalGo base rest (result * base + (d : ℤ))
    else .error .invalidDigit

/-- `baseToDecimal` (lines 53-67): check the base, then run the
accumulation loop over the characters starting from `0`. -/
def baseToDecimal (value : List Char) (base : ℤ) : Except SolveError ℤ :=
  if base < 2 ∨ 36 < base then .error .invalidBase
  else baseToDecimalGo base value 0

/-- The x-coordinate `selected[i][0]` of the `i`-th point of a list. -/
def posAt (sel : List (ℤ × ℤ)) (i : ℕ) : ℤ := (sel.getD i (0, 0)).1

/-- The y-coordinate `selected[i][1]` of the `i`-th point of a list. -/
def valAt (sel : List (ℤ × ℤ)) (i : ℕ) : ℤ := (sel.getD i (0, 0)).2

/-- The numerator product of the `i`-th Lagrange term: the inner loop
`num *= xEval - xj` over `j ≠ i` (lines 106-111 with `xEval = 0`,
lines 134-139 in general). -/
def termNum (sel : List (ℤ × ℤ)) (xEval : ℤ) (i : ℕ) : ℤ :=
  ∏ j ∈ (Finset.range sel.length).erase i, (xEval - posAt sel j)

/-- The denominator product of the `i`-th Lagrange term: the inner loop
`den *= xi - xj` over `j ≠ i`. -/
def termDen (sel : List (ℤ × ℤ)) (i : ℕ) : ℤ :=
  ∏ j ∈ (Finset.range sel.length).erase i, (posAt sel i - posAt sel j)

/-- The accumulation loop shared syntactically by `lagrangeConstantAtZero`
(lines 98-116, with `xEval = 0`) and `lagrangeEvaluate` (lines 127-142):
for each index `i`, reduce the term fraction `(num * yi) / den` with
`simplifyFrac` and add it onto the accumulator with `addFrac`. -/
def lagrangeSumAux (sel : List (ℤ × ℤ)) (xEval : ℤ) :
    List ℕ → ℤ × ℤ → Except SolveError (ℤ × ℤ)
  | [], acc => .ok acc
  | i :: rest, acc =>
    match simplifyFrac (termNum sel xEval i * valAt sel i) (termDen sel i) with
    | .error e => .error e
    | .ok t =>
      match addFrac acc.1 acc.2 t.1 t.2 with
      | .error e => .error e
      | .ok acc' => lagrangeSumAux sel xEval rest acc'

/-- The full accumulation loop: indices `0..selected.length-1`, starting
from the fraction `0/1` (`numSum = 0n`, `denSum = 1n`). -/
def lagrangeSumLoop (sel : List (ℤ × ℤ)) (xEval : ℤ) : Except SolveError (ℤ × ℤ) :=
  lagrangeSumAux sel xEval (List.range sel.length) (0, 1)

/-- The duplicate-x double loop of lines 76-82: some pair `i < j` of selected
points shares an x-coordinate. -/
def hasDuplicateX (sel : List (ℤ × ℤ)) : Bool :=
  decide (∃ i < sel.length, ∃ j < sel.length, i < j ∧ posAt sel i = posAt sel j)

/-- Line 85: `selected.every(([x], idx) => x === idx + 1)`. -/
def isConsecutive (sel : List (ℤ × ℤ)) : Bool :=
  decide (∀ i < sel.length, posAt sel i = (i : ℤ) + 1)

/-- The closed-form loop of lines 87-94:
`sum += sign * C(k, i+1) * yi` with `sign = (-1)^i` encoded as
`i % 2 == 0 ? 1n : -1n`. -/
def consecutiveSum (sel : List (ℤ × ℤ)) (k : ℕ) : ℤ :=
  ∑ i ∈ Finset.range k,
    (if i % 2 = 0 then (1 : ℤ) else -1) * binomBigInt (k : ℤ) ((i : ℤ) + 1) * valAt sel i

/-- `lagrangeConstantAtZero` (lines 71-122): take the first `k` points, check
the count and duplicate x-coordinates, use the closed-form consecutive path
when the positions are exactly `1..k`, and otherwise run the general
fraction accumulation, failing on a non-integral final fraction. -/
def lagrangeConstantAtZero (points : List (ℤ × ℤ)) (k : ℕ) : Except SolveError ℤ :=
  let selected := points.take k
  if selected.length < k then .error .needKPoints
  else if hasDuplicateX selected then .error .duplicateX
  else if isConsecutive selected then .ok (consecutiveSum selected k)
  else
    match lagrangeSumLoop selected 0 with
    | .error e => .error e
    | .ok (numSum, denSum) =>
      if numSum.tmod denSum ≠ 0 then .error .nonInteger
      else .ok (numSum.tdiv denSum)

/-- Result of `lagrangeEvaluate` (lines 143-147): an exact integer, or the
non-integral fraction returned (as a debug string in JS) when the final
fraction does not reduce to an integer. -/
inductive EvalResult
  | int (z : ℤ)
  | frac (num den : ℤ)
  deriving DecidableEq

/-- `lagrangeEvaluate` (lines 125-148): the same accumulation at an arbitrary
evaluation position, with no length or duplicate checks; a non-integral
result is surfaced as a fraction instead of an error. -/
def lagrangeEvaluate (points : List (ℤ × ℤ)) (k : ℕ) (xEval : ℤ) :
    Except SolveError EvalResult :=
  let selected := points.take k
  match lagrangeSumLoop selected xEval with
  | .error e => .error e
  | .ok (numSum, denSum) =>
    if numSum.tmod denSum ≠ 0 then .ok (.frac numSum denSum)
    else .ok (.int (numSum.tdiv denSum))

/-- One numbered entry of the parsed input JSON: a base (already parsed to an
integer by `parseInt`) and a digit string. -/
structure Share where
  base : ℤ
  value : List Char

/-- The parsed JSON record consumed by `solvePolynomial`: `keys.n`, `keys.k`,
and an optional entry per numbered key. -/
structure PolyInput where
  n : ℕ
  k : ℕ
  entries : ℕ → Option Share

/-- The record returned by `solvePolynomial` (line 178). -/
structure SolveResult where
  constantTerm : ℤ
  points : List (ℤ × ℤ)
  k : ℕ
  deriving DecidableEq

/-- The decoding loop of lines 159-170: for each `i = 1..n` with an entry
present, decode its value in its base and append the point `(i, y)`. -/
def decodeLoop (J : PolyInput) : List ℕ → List (ℤ × ℤ) → Except SolveError (List (ℤ × ℤ))
  | [], pts => .ok pts
  | i :: rest, pts =>
    match J.entries i with
    | none => decodeLoop J rest pts
    | some sh =>
      match baseToDecimal sh.value sh.base with
      | .error e => .error e
      | .ok y => decodeLoop J rest (pts ++ [((i : ℤ), y)])

/-- The decoded point list of an input: the loop above over `i = 1..n`. -/
def decodePoints (J : PolyInput) : Except SolveError (List (ℤ × ℤ)) :=
  decodeLoop J ((List.range J.n).map (· + 1)) []

/-- Line 176, `points.sort((a, b) => a[0] - b[0])`: sort ascending by
x-coordinate.  JS `Array.prototype.sort` is a stable comparison sort; it is
modelled by (structurally recursive) insertion sort, which agrees with it on
every list, the comparator keys being compared totally. -/
def sortPoints (pts : List (ℤ × ℤ)) : List (ℤ × ℤ) :=
  List.insertionSort (fun a b => a.1 ≤ b.1) pts

/-- `solvePolynomial` (lines 152-179): decode the points, fail with the
`InsufficientPoints` message when fewer than `k` decoded, then sort by
position and interpolate at zero. -/
def solvePolynomial (J : PolyInput) : Except SolveError SolveResult :=
  match decodePoints J with
  | .error e => .error e
  | .ok points =>
    if points.length < J.k then .error .insufficientPoints
    else
      let sorted := sortPoints points
      match lagrangeConstantAtZero sorted J.k with
      | .error e => .error e
      | .ok c => .ok ⟨c, sorted, J.k⟩

/-! ### Specification-side definitions

`evalPoly`, `specDigit`, `isValidDigit` and `specBaseValue` state spec
properties about the embedded code; the `consensus*` family is the Robust
Consensus Selector of spec sections 4.6 and 4.7, which has no counterpart in
the source and is modelled from the spec's words to compare against
`solvePolynomial`. -/

/-- Evaluation of the integer-coefficient polynomial whose coefficient list is
`c` (index `i` holds the coefficient of `x^i`). -/
def evalPoly (c : List ℤ) (x : ℤ) : ℤ :=
  ∑ i ∈ Finset.range c.length, c.getD i 0 * x ^ i

/-- Spec section 4.2 digit alphabet: `'0'..'9'` are digits 0-9 and
`'a'..'z'` are digits 10-35, after the decoder's case folding (`jsToLower`,
so that e.g. U+212A case-folds to the digit `'k'`); other characters have
no digit value. -/
def specDigit (c : Char) : Option ℕ :=
  let ch := jsToLower c
  if '0' ≤ ch ∧ ch ≤ '9' then some (ch.toNat - '0'.toNat)
  else if 'a' ≤ ch ∧ ch ≤ 'z' then some (ch.toNat - 'a'.toNat + 10)
  else none

/-- A character is a valid digit for `base` when its digit value exists and is
less than `base`. -/
def isValidDigit (c : Char) (base : ℤ) : Bool :=
  match specDigit c with
  | some d => decide ((d : ℤ) < base)
  | none => false

/-- The standard positional value of a digit string: the digit of index `i`
weighted by `base ^ (len - 1 - i)`. -/
def specBaseValue (value : List Char) (base : ℤ) : ℤ :=
  ∑ i ∈ Finset.range value.length,
    ((specDigit (value.getD i ' ')).getD 0 : ℤ) * base ^ (value.length - 1 - i)

/-- Modelled from the spec: section 4.6 Combinatorial Subset Enumerator, which
is not in the source.  All strictly increasing `k`-element index sequences
drawn from the pool, in lexicographic order. -/
def combLex : List ℕ → ℕ → List (List ℕ)
  | _, 0 => [[]]
  | [], _ + 1 => []
  | x :: xs, kk + 1 => (combLex xs kk).map (x :: ·) ++ combLex xs (kk + 1)

/-- The points of `pts` selected by an index subset. -/
def subsetPoints (pts : List (ℤ × ℤ)) (s : List ℕ) : List (ℤ × ℤ) :=
  s.map (fun i => pts.getD i (0, 0))

/-- Modelled from the spec: section 4.3's solve succeeds exactly when the
subset's positions are pairwise distinct (a Vandermonde matrix over distinct
positions is non-singular; `SingularSystem` otherwise). -/
def fitOk (sub : List (ℤ × ℤ)) : Bool :=
  decide (List.Pairwise (fun a b => a.1 ≠ b.1) sub)

/-- Modelled from the spec: sections 4.3 and 4.7.  The model fitted to a
subset is the unique interpolating polynomial through its points; its value at
`x`, computed with the same exact-fraction machinery, is the Lagrange form -
the `lagrangeSumAux` accumulation over the subset at evaluation position `x`. -/
def modelEvalFrac (sub : List (ℤ × ℤ)) (x : ℤ) : Except SolveError (ℤ × ℤ) :=
  lagrangeSumAux sub x (List.range sub.length) (0, 1)

/-- Modelled from the spec: section 4.7's inlier test, exact equality of a
point's value with the model's evaluation at its position, as
ExactFraction-equal-to-integer (section 4.1: denominator 1, equal numerator). -/
def isInlier (sub : List (ℤ × ℤ)) (p : ℤ × ℤ) : Bool :=
  match modelEvalFrac sub p.1 with
  | .ok nd => decide (nd.2 = 1 ∧ nd.1 = p.2)
  | .error _ => false

/-- Modelled from the spec: a candidate model's score is the number of inliers
among the full point list. -/
def consensusScore (pts sub : List (ℤ × ℤ)) : ℕ :=
  (pts.filter (fun p => isInlier sub p)).length

/-- Modelled from the spec: section 4.7's search loop.  Subsets failing to fit
are skipped; a strictly better score replaces the retained best (ties keep the
earlier subset); a perfect score `n` terminates the search immediately. -/
def consensusLoop (pts : List (ℤ × ℤ)) (n : ℕ) :
    List (List ℕ) → Option (List ℕ × ℕ) → Option (List ℕ × ℕ)
  | [], best => best
  | s :: rest, best =>
    let sub := subsetPoints pts s
    if fitOk sub then
      let sc := consensusScore pts sub
      let best' := match best with
        | none => some (s, sc)
        | some b => if b.2 < sc then some (s, sc) else some b
      if sc = n then best' else consensusLoop pts n rest best'
    else consensusLoop pts n rest best

/-- Modelled from the spec: the Robust Consensus Selector's constant term -
`InsufficientPoints` (`none`) for fewer than `k` points, otherwise the
winning model's value at zero over all `C(n,k)` subsets in lexicographic
order, `none` again when no subset fits or the winner's constant term is not
an integer. -/
def consensusConstantTerm (pts : List (ℤ × ℤ)) (k : ℕ) : Option ℤ :=
  if pts.length < k then none
  else
    match consensusLoop pts pts.length (combLex (List.range pts.length) k) none with
    | none => none
    | some sb =>
      match modelEvalFrac (subsetPoints pts sb.1) 0 with
      | .ok nd => if nd.2 = 1 then some nd.1 else none
      | .error _ => none

/-- A five-point input (`n = 5`, `k = 3`) whose three smallest-position points
(999 at 1, 4 at 2, 9 at 3) disagree with the consensus-best model: the other
points all lie on `x^2`, which fits four of the five points. -/
def divergenceInput : PolyInput where
  n := 5
  k := 3
  entries := fun i =>
    if i = 1 then some ⟨10, ['9', '9', '9']⟩
    else if i = 2 then some ⟨10, ['4']⟩
    else if i = 3 then some ⟨10, ['9']⟩
    else if i = 4 then some ⟨10, ['1', '6']⟩
    else if i = 5 then some ⟨10, ['2', '5']⟩
    else none

/-- The embedded `testcase1.json` of `createTestFiles` (lines 209-215):
`n = 4`, `k = 3`, values 4, 7, 12, 39 encoded in bases 10, 2, 10, 4 at
indices 1, 2, 3 and 6. -/
def testcase1Input : PolyInput where
  n := 4
  k := 3
  entries := fun i =>
    if i = 1 then some ⟨10, ['4']⟩
    else if i = 2 then some ⟨2, ['1', '1', '1']⟩
    else if i = 3 then some ⟨10, ['1', '2']⟩
    else if i = 6 then some ⟨4, ['2', '1', '3']⟩
    else none

/-- A four-point input whose fourth point is ignored by the first-3
interpolation: decodes to (1,4),(2,7),(3,12),(4,99). -/
def extraPointInputA : PolyInput where
  n := 4
  k := 3
  entries := fun i =>
    if i = 1 then some ⟨10, ['4']⟩
    else if i = 2 then some ⟨2, ['1', '1', '1']⟩
    else if i = 3 then some ⟨10, ['1', '2']⟩
    else if i = 4 then some ⟨10, ['9', '9']⟩
    else none

/-- Like `extraPointInputA` but with a different fourth value:
decodes to (1,4),(2,7),(3,12),(4,7). -/
def extraPointInputB : PolyInput where
  n := 4
  k := 3
  entries := fun i =>
    if i = 1 then some ⟨10, ['4']⟩
    else if i = 2 then some ⟨2, ['1', '1', '1']⟩
    else if i = 3 then some ⟨10, ['1', '2']⟩
    else if i = 4 then some ⟨10, ['7']⟩
    else none

/-! ### Proof-side definitions -/

/-- Invariant of a stored numerator/denominator pair: strictly positive
denominator, numerator and denominator coprime. -/
def Reduced (p : ℤ × ℤ) : Prop := 0 < p.2 ∧ Int.gcd p.1 p.2 = 1

/-- The rational number a numerator/denominator pair stands for. -/
def fracQ (p : ℤ × ℤ) : ℚ := (p.1 : ℚ) / (p.2 : ℚ)

/-- The exact rational value of the `i`-th Lagrange term. -/
def termQ (sel : List (ℤ × ℤ)) (xEval : ℤ) (i : ℕ) : ℚ :=
  ((termNum sel xEval i * valAt sel i : ℤ) : ℚ) / ((termDen sel i : ℤ) : ℚ)

/-- The rational polynomial with integer coefficient list `c`. -/
noncomputable def ratPoly (c : List ℤ) : Polynomial ℚ :=
  ∑ i : Fin c.length, Polynomial.C ((c.getD (i : ℕ) 0 : ℤ) : ℚ) * Polynomial.X ^ (i : ℕ)

instance : IsTotal (ℤ × ℤ) (fun a b => a.1 ≤ b.1) :=
  ⟨fun a b => le_total a.1 b.1⟩

instance : IsTrans (ℤ × ℤ) (fun a b => a.1 ≤ b.1) :=
  ⟨fun _ _ _ h1 h2 => le_trans h1 h2⟩

/-! ### Fraction arithmetic: reduction invariants and rational soundness -/

@[simp] theorem fracQ_mk (a b : ℤ) : fracQ (a, b) = (a : ℚ) / (b : ℚ) := rfl

theorem gcdLoop_eq_gcd (b : ℕ) : ∀ a, gcdLoop a b = Nat.gcd b a := by
  induction b using Nat.strong_induction_on with
  | _ b ih =>
    intro a
    rw [gcdLoop]
    by_cases h : b = 0
    · simp [h]
    · rw [dif_neg h, ih (a % b) (Nat.mod_lt _ (Nat.pos_of_ne_zero h)), Nat.gcd_rec b a]

/-- Sanity check: the closed form used for `gcdBigInt` computes exactly what
the source's `while` loop computes. -/
theorem gcdBigInt_eq_gcdLoop (a b : ℤ) : gcdBigInt a b = (gcdLoop a.natAbs b.natAbs : ℤ) := by
  rw [gcdLoop_eq_gcd]
  unfold gcdBigInt
  rw [Nat.gcd_comm]

theorem gcdBigInt_eq_gcd (a b : ℤ) : gcdBigInt a b = (Int.gcd a b : ℤ) := rfl

theorem gcdBigInt_if_abs (a b : ℤ) :
    gcdBigInt (if a < 0 then -a else a) b = (Int.gcd a b : ℤ) := by
  unfold gcdBigInt Int.gcd
  split <;> simp [Int.natAbs_neg]

/-- Dividing a pair with positive denominator by the gcd of its components
yields a reduced pair with the same rational value. -/
theorem reduceStep (N D : ℤ) (hD : 0 < D) :
    0 < D.tdiv (Int.gcd N D : ℤ) ∧
    Int.gcd (N.tdiv (Int.gcd N D : ℤ)) (D.tdiv (Int.gcd N D : ℤ)) = 1 ∧
    ((N.tdiv (Int.gcd N D : ℤ) : ℚ) / (D.tdiv (Int.gcd N D : ℤ) : ℚ) = (N : ℚ) / (D : ℚ)) := by
  have hD0 : D ≠ 0 := ne_of_gt hD
  have hgpos : 0 < Int.gcd N D := Int.gcd_pos_iff.mpr (Or.inr hD0)
  have hg0 : ((Int.gcd N D : ℤ)) ≠ 0 := by
    simpa using Nat.pos_iff_ne_zero.mp hgpos
  have hdvdN : ((Int.gcd N D : ℤ)) ∣ N := Int.gcd_dvd_left
  have hdvdD : ((Int.gcd N D : ℤ)) ∣ D := Int.gcd_dvd_right
  rw [Int.tdiv_eq_ediv_of_dvd hdvdN, Int.tdiv_eq_ediv_of_dvd hdvdD]
  have hgQ : ((Int.gcd N D : ℤ) : ℚ) ≠ 0 := by exact_mod_cast hg0
  have hgz : (0 : ℤ) < (Int.gcd N D : ℤ) := by exact_mod_cast hgpos
  have hNg : N / (Int.gcd N D : ℤ) * (Int.gcd N D : ℤ) = N := Int.ediv_mul_cancel hdvdN
  have hDg : D / (Int.gcd N D : ℤ) * (Int.gcd N D : ℤ) = D := Int.ediv_mul_cancel hdvdD
  refine ⟨?_, Int.gcd_div_gcd_div_gcd hgpos, ?_⟩
  · by_contra hb
    push_neg at hb
    nlinarith
  · have e1 : ((N / (Int.gcd N D : ℤ) : ℤ) : ℚ) * ((Int.gcd N D : ℤ) : ℚ) = (N : ℚ) := by
      exact_mod_cast hNg
    have e2 : ((D / (Int.gcd N D : ℤ) : ℤ) : ℚ) * ((Int.gcd N D : ℤ) : ℚ) = (D : ℚ) := by
      exact_mod_cast hDg
    calc ((N / (Int.gcd N D : ℤ) : ℤ) : ℚ) / ((D / (Int.gcd N D : ℤ) : ℤ) : ℚ)
        = ((N / (Int.gcd N D : ℤ) : ℤ) : ℚ) * ((Int.gcd N D : ℤ) : ℚ) /
          (((D / (Int.gcd N D : ℤ) : ℤ) : ℚ) * ((Int.gcd N D : ℤ) : ℚ)) :=
          (mul_div_mul_right _ _ hgQ).symm
      _ = (N : ℚ) / (D : ℚ) := by rw [e1, e2]

/-- `simplifyFrac` on a nonzero denominator succeeds with a reduced pair of
the same rational value. -/
theorem simplifyFrac_ok (num den : ℤ) (h : den ≠ 0) :
    ∃ p, simplifyFrac num den = .ok p ∧ Reduced p ∧ fracQ p = (num : ℚ) / (den : ℚ) := by
  simp only [simplifyFrac, if_neg h]
  by_cases hneg : den < 0
  · simp only [if_pos hneg, gcdBigInt_if_abs]
    have h2 : (0 : ℤ) < -den := by omega
    obtain ⟨hpos, hgcd, hval⟩ := reduceStep (-num) (-den) h2
    refine ⟨_, rfl, ⟨hpos, hgcd⟩, ?_⟩
    rw [fracQ_mk, hval]
    push_cast
    exact neg_div_neg_eq _ _
  · simp only [if_neg hneg, gcdBigInt_if_abs]
    have h2 : (0 : ℤ) < den := by omega
    obtain ⟨hpos, hgcd, hval⟩ := reduceStep num den h2
    exact ⟨_, rfl, ⟨hpos, hgcd⟩, hval⟩

theorem simplifyFrac_zero (num : ℤ) : simplifyFrac num 0 = .error .zeroDenominator := rfl

/-- `simplifyFrac` fails exactly on denominator zero, and then with the
zero-denominator error. -/
theorem simplifyFrac_error_iff (num den : ℤ) (e : SolveError) :
    simplifyFrac num den = .error e ↔ den = 0 ∧ e = .zeroDenominator := by
  constructor
  · intro h
    by_cases hd : den = 0
    · subst hd
      rw [simplifyFrac_zero] at h
      exact ⟨rfl, (Except.error.injEq _ _).mp h.symm⟩
    · obtain ⟨p, hp, -, -⟩ := simplifyFrac_ok num den hd
      rw [hp] at h
      exact absurd h (by simp)
  · rintro ⟨rfl, rfl⟩
    exact simplifyFrac_zero num

/-- `addFrac` on valid (nonzero-denominator) fractions succeeds with a
reduced pair representing the rational sum. -/
theorem addFrac_ok (n1 d1 n2 d2 : ℤ) (h1 : d1 ≠ 0) (h2 : d2 ≠ 0) :
    ∃ p, addFrac n1 d1 n2 d2 = .ok p ∧ Reduced p ∧
      fracQ p = (n1 : ℚ) / (d1 : ℚ) + (n2 : ℚ) / (d2 : ℚ) := by
  obtain ⟨p, hp, hred, hval⟩ := simplifyFrac_ok (n1 * d2 + n2 * d1) (d1 * d2) (mul_ne_zero h1 h2)
  refine ⟨p, hp, hred, ?_⟩
  rw [hval]
  have h1Q : (d1 : ℚ) ≠ 0 := by exact_mod_cast h1
  have h2Q : (d2 : ℚ) ≠ 0 := by exact_mod_cast h2
  rw [div_add_div _ _ h1Q h2Q]
  push_cast
  ring_nf

/-- `mulFracBigInt` on a valid fraction succeeds with a reduced pair
representing the rational product. -/
theorem mulFracBigInt_ok (n d k : ℤ) (h : d ≠ 0) :
    ∃ p, mulFracBigInt n d k = .ok p ∧ Reduced p ∧
      fracQ p = (n : ℚ) / (d : ℚ) * (k : ℚ) := by
  obtain ⟨p, hp, hred, hval⟩ := simplifyFrac_ok (n * k) d h
  refine ⟨p, hp, hred, ?_⟩
  rw [hval]
  push_cast
  ring

/-- A reduced pair standing for an integer has denominator 1 and that integer
as numerator. -/
theorem reduced_eq_int (n d m : ℤ) (hd : 0 < d) (hg : Int.gcd n d = 1)
    (h : (n : ℚ) / (d : ℚ) = (m : ℚ)) : d = 1 ∧ n = m := by
  have hd0 : (d : ℚ) ≠ 0 := by exact_mod_cast ne_of_gt hd
  rw [div_eq_iff hd0] at h
  have hnm : n = m * d := by exact_mod_cast h
  have hdvd : d ∣ n := ⟨m, by rw [hnm, mul_comm]⟩
  have hdvd1 : d ∣ (1 : ℤ) := by
    have hh := Int.dvd_gcd hdvd (dvd_refl d)
    rwa [hg, Nat.cast_one] at hh
  have hd1 : d = 1 := Int.eq_one_of_dvd_one (le_of_lt hd) hdvd1
  exact ⟨hd1, by rw [hnm, hd1, mul_one]⟩

/-- For a reduced pair, the `numSum % denSum` test of the source detects
exactly the integral case `denSum = 1`. -/
theorem reduced_tmod_eq_zero (n d : ℤ) (hd : 0 < d) (hg : Int.gcd n d = 1) :
    n.tmod d = 0 ↔ d = 1 := by
  constructor
  · intro h
    have ht := Int.tdiv_add_tmod n d
    have hdvd : d ∣ n := ⟨n.tdiv d, by omega⟩
    have hdvd1 : d ∣ (1 : ℤ) := by
      have hh := Int.dvd_gcd hdvd (dvd_refl d)
      rwa [hg, Nat.cast_one] at hh
    exact Int.eq_one_of_dvd_one (le_of_lt hd) hdvd1
  · intro h
    subst h
    exact Int.tmod_one n

/-- Sums over `List.range` agree with sums over `Finset.range`. -/
theorem list_range_map_sum {M : Type*} [AddCommMonoid M] (n : ℕ) (f : ℕ → M) :
    ((List.range n).map f).sum = ∑ i ∈ Finset.range n, f i := by
  induction n with
  | zero => simp
  | succ n ih =>
    rw [List.range_succ, List.map_append, List.sum_append, Finset.sum_range_succ, ih]
    simp

/-! ### The Lagrange accumulation loop -/

/-- The accumulation loop, run over indices with nonzero term denominators
from a reduced accumulator, succeeds with a reduced pair representing the
rational sum of the accumulator and all terms. -/
theorem lagrangeSumAux_ok (sel : List (ℤ × ℤ)) (xEval : ℤ) (l : List ℕ) :
    ∀ acc : ℤ × ℤ, Reduced acc → (∀ i ∈ l, termDen sel i ≠ 0) →
    ∃ p, lagrangeSumAux sel xEval l acc = .ok p ∧ Reduced p ∧
      fracQ p = fracQ acc + (l.map (termQ sel xEval)).sum := by
  induction l with
  | nil =>
    intro acc hacc _
    exact ⟨acc, rfl, hacc, by simp⟩
  | cons i rest ih =>
    intro acc hacc hden
    have hdi : termDen sel i ≠ 0 := hden i (List.mem_cons_self i rest)
    obtain ⟨t, ht, htred, htval⟩ :=
      simplifyFrac_ok (termNum sel xEval i * valAt sel i) (termDen sel i) hdi
    obtain ⟨a, ha, hared, haval⟩ :=
      addFrac_ok acc.1 acc.2 t.1 t.2 (ne_of_gt hacc.1) (ne_of_gt htred.1)
    obtain ⟨p, hp, hpred, hpval⟩ := ih a hared (fun j hj => hden j (List.mem_cons_of_mem i hj))
    refine ⟨p, ?_, hpred, ?_⟩
    · simp only [lagrangeSumAux, ht, ha, hp]
    · rw [List.map_cons, List.sum_cons, hpval, haval]
      have ht2 : fracQ t = termQ sel xEval i := by
        rw [htval]
        rfl
      rw [← ht2]
      simp only [fracQ]
      ring

/-- Pairwise-distinct positions make every term denominator nonzero. -/
theorem termDen_ne_zero (sel : List (ℤ × ℤ)) (i : ℕ) (hi : i < sel.length)
    (hdist : ∀ a < sel.length, ∀ b < sel.length, a < b → posAt sel a ≠ posAt sel b) :
    termDen sel i ≠ 0 := by
  unfold termDen
  rw [Finset.prod_ne_zero_iff]
  intro j hj
  rw [Finset.mem_erase, Finset.mem_range] at hj
  obtain ⟨hne, hjlt⟩ := hj
  rcases lt_or_gt_of_ne hne with h | h
  · exact sub_ne_zero_of_ne (Ne.symm (hdist j hjlt i hi h))
  · exact sub_ne_zero_of_ne (hdist i hi j hjlt h)

/-- The full loop under pairwise-distinct positions: a reduced pair
representing the exact Lagrange sum. -/
theorem lagrangeSumLoop_ok (sel : List (ℤ × ℤ)) (xEval : ℤ)
    (hdist : ∀ a < sel.length, ∀ b < sel.length, a < b → posAt sel a ≠ posAt sel b) :
    ∃ p, lagrangeSumLoop sel xEval = .ok p ∧ Reduced p ∧
      fracQ p = ∑ i ∈ Finset.range sel.length, termQ sel xEval i := by
  obtain ⟨p, hp, hred, hval⟩ := lagrangeSumAux_ok sel xEval (List.range sel.length) (0, 1)
    ⟨one_pos, by decide⟩
    (fun i hi => termDen_ne_zero sel i (List.mem_range.mp hi) hdist)
  refine ⟨p, hp, hred, ?_⟩
  rw [hval, list_range_map_sum]
  simp [fracQ]

/-- The only error the accumulation loop can produce is the
zero-denominator one. -/
theorem lagrangeSumAux_error (sel : List (ℤ × ℤ)) (xEval : ℤ) (l : List ℕ) :
    ∀ acc e, lagrangeSumAux sel xEval l acc = .error e → e = .zeroDenominator := by
  induction l with
  | nil =>
    intro acc e h
    exact absurd h (by simp [lagrangeSumAux])
  | cons i rest ih =>
    intro acc e h
    rw [lagrangeSumAux] at h
    cases hs : simplifyFrac (termNum sel xEval i * valAt sel i) (termDen sel i) with
    | error e' =>
      rw [hs] at h
      simp only [] at h
      have := (simplifyFrac_error_iff _ _ _).mp hs
      rw [← (Except.error.injEq _ _).mp h]
      exact this.2
    | ok t =>
      rw [hs] at h
      simp only [] at h
      cases ha : addFrac acc.1 acc.2 t.1 t.2 with
      | error e' =>
        rw [ha] at h
        simp only [] at h
        have := (simplifyFrac_error_iff _ _ _).mp ha
        rw [← (Except.error.injEq _ _).mp h]
        exact this.2
      | ok a =>
        rw [ha] at h
        simp only [] at h
        exact ih a e h

/-! ### Lagrange interpolation at zero recovers the constant term -/

theorem ratPoly_eval_cast (c : List ℤ) (x : ℤ) :
    (ratPoly c).eval (x : ℚ) = (evalPoly c x : ℚ) := by
  unfold ratPoly evalPoly
  rw [Polynomial.eval_finset_sum]
  simp only [Polynomial.eval_mul, Polynomial.eval_pow, Polynomial.eval_C, Polynomial.eval_X]
  rw [Fin.sum_univ_eq_sum_range (fun i => ((c.getD i 0 : ℤ) : ℚ) * (x : ℚ) ^ i) c.length]
  push_cast
  rfl

theorem ratPoly_degree_lt (c : List ℤ) : (ratPoly c).degree < (c.length : WithBot ℕ) :=
  Polynomial.degree_sum_fin_lt _

/-- One Lagrange term of the source matches the evaluation at zero of the
corresponding Mathlib Lagrange basis summand. -/
theorem termQ_eq_eval_basis (sel : List (ℤ × ℤ)) (c : List ℤ) (i : ℕ) (hi : i < sel.length)
    (hvi : valAt sel i = evalPoly c (posAt sel i)) :
    termQ sel 0 i =
      Polynomial.eval ((fun j : ℕ => (posAt sel j : ℚ)) i) (ratPoly c) *
        Polynomial.eval 0
          (Lagrange.basis (Finset.range sel.length) (fun j : ℕ => (posAt sel j : ℚ)) i) := by
  have hcast : Polynomial.eval ((fun j : ℕ => (posAt sel j : ℚ)) i) (ratPoly c) =
      (valAt sel i : ℚ) := by
    show (ratPoly c).eval ((posAt sel i : ℤ) : ℚ) = (valAt sel i : ℚ)
    rw [ratPoly_eval_cast, ← hvi]
  rw [hcast]
  unfold Lagrange.basis Lagrange.basisDivisor
  rw [Polynomial.eval_prod]
  simp only [Polynomial.eval_mul, Polynomial.eval_sub, Polynomial.eval_C, Polynomial.eval_X]
  rw [Finset.prod_mul_distrib, Finset.prod_inv_distrib]
  unfold termQ termNum termDen
  push_cast
  rw [div_eq_mul_inv]
  ring

/-- Key soundness fact: when the selected values come from an integer
polynomial of degree below the number of points and the positions are
pairwise distinct, the exact Lagrange sum at zero is that polynomial's value
at zero. -/
theorem sum_termQ_eq_evalPoly (sel : List (ℤ × ℤ)) (c : List ℤ)
    (hc : c.length ≤ sel.length)
    (hdist : ∀ a < sel.length, ∀ b < sel.length, a < b → posAt sel a ≠ posAt sel b)
    (hval : ∀ i < sel.length, valAt sel i = evalPoly c (posAt sel i)) :
    ∑ i ∈ Finset.range sel.length, termQ sel 0 i = (evalPoly c 0 : ℚ) := by
  classical
  have hinj : Set.InjOn (fun j : ℕ => (posAt sel j : ℚ)) (Finset.range sel.length) := by
    intro a ha b hb hab
    simp only [Finset.coe_range, Set.mem_Iio] at ha hb
    by_contra hne
    have hab' : posAt sel a = posAt sel b := by
      have hab2 : (posAt sel a : ℚ) = (posAt sel b : ℚ) := hab
      exact_mod_cast hab2
    rcases lt_or_gt_of_ne hne with h | h
    · exact hdist a ha b hb h hab'
    · exact hdist b hb a ha h hab'.symm
  have hdeg : (ratPoly c).degree < ((Finset.range sel.length).card : WithBot ℕ) := by
    rw [Finset.card_range]
    exact lt_of_lt_of_le (ratPoly_degree_lt c) (by exact_mod_cast hc)
  have key := Lagrange.eq_interpolate hinj hdeg
  have keyeval := congrArg (Polynomial.eval (0 : ℚ)) key
  rw [Lagrange.interpolate_apply, Polynomial.eval_finset_sum] at keyeval
  simp only [Polynomial.eval_mul, Polynomial.eval_C] at keyeval
  rw [Finset.sum_congr rfl
    (fun i hi => termQ_eq_eval_basis sel c i (Finset.mem_range.mp hi)
      (hval i (Finset.mem_range.mp hi)))]
  rw [← keyeval]
  have hz := ratPoly_eval_cast c 0
  simpa using hz

/-! ### `binomBigInt` computes binomial coefficients -/

/-- Invariant of the `binomBigInt` fold: after `m` iterations the pair is
reduced and stands for `(n)(n-1)...(n-m+1) / m!` exactly. -/
theorem binomFold_spec (n : ℤ) (m : ℕ) :
    Reduced ((List.range m).foldl (binomStep n) (1, 1)) ∧
    fracQ ((List.range m).foldl (binomStep n) (1, 1)) =
      (∏ j ∈ Finset.range m, ((n : ℚ) - j)) / (m.factorial : ℚ) := by
  induction m with
  | zero =>
    rw [List.range_zero, List.foldl_nil]
    refine ⟨⟨one_pos, by decide⟩, ?_⟩
    simp [fracQ]
  | succ m ih =>
    obtain ⟨⟨hbpos, hbgcd⟩, hval⟩ := ih
    rw [List.range_succ, List.foldl_append, List.foldl_cons, List.foldl_nil]
    set p := (List.range m).foldl (binomStep n) (1, 1) with hpdef
    have hden : (0 : ℤ) < p.2 * ((m : ℤ) + 1) := by positivity
    have hstep : binomStep n p m =
        ((p.1 * (n - ((m : ℤ) + 1 - 1))).tdiv
          (Int.gcd (p.1 * (n - ((m : ℤ) + 1 - 1))) (p.2 * ((m : ℤ) + 1)) : ℤ),
         (p.2 * ((m : ℤ) + 1)).tdiv
          (Int.gcd (p.1 * (n - ((m : ℤ) + 1 - 1))) (p.2 * ((m : ℤ) + 1)) : ℤ)) := rfl
    obtain ⟨hpos, hgcd, hv⟩ := reduceStep (p.1 * (n - ((m : ℤ) + 1 - 1))) (p.2 * ((m : ℤ) + 1)) hden
    refine ⟨⟨?_, ?_⟩, ?_⟩
    · rw [hstep]; exact hpos
    · rw [hstep]; exact hgcd
    · rw [hstep, fracQ_mk, hv]
      have harg : ((m : ℤ) + 1 - 1) = (m : ℤ) := by ring
      have hval2 : (p.1 : ℚ) / (p.2 : ℚ) =
          (∏ j ∈ Finset.range m, ((n : ℚ) - j)) / (m.factorial : ℚ) := hval
      rw [harg, Finset.prod_range_succ, Nat.factorial_succ]
      push_cast
      calc ((p.1 : ℚ) * ((n : ℚ) - (m : ℚ))) / ((p.2 : ℚ) * ((m : ℚ) + 1))
          = ((p.1 : ℚ) / (p.2 : ℚ)) * (((n : ℚ) - (m : ℚ)) / ((m : ℚ) + 1)) := by
            rw [div_mul_div_comm]
        _ = ((∏ j ∈ Finset.range m, ((n : ℚ) - j)) / (m.factorial : ℚ)) *
            (((n : ℚ) - (m : ℚ)) / ((m : ℚ) + 1)) := by rw [hval2]
        _ = ((∏ j ∈ Finset.range m, ((n : ℚ) - j)) * ((n : ℚ) - (m : ℚ))) /
            (((m : ℚ) + 1) * (m.factorial : ℚ)) := by
            rw [div_mul_div_comm, mul_comm (m.factorial : ℚ) _]

/-- `binomBigInt` agrees with `Nat.choose` on `0 ≤ k ≤ n`. -/
theorem binomBigInt_eq_choose (n k : ℕ) (hk : k ≤ n) :
    binomBigInt (n : ℤ) (k : ℤ) = (n.choose k : ℤ) := by
  have hcond : ¬((k : ℤ) < 0 ∨ (n : ℤ) < (k : ℤ)) := by
    push_neg
    exact ⟨by positivity, by exact_mod_cast hk⟩
  unfold binomBigInt
  rw [if_neg hcond]
  have hk' : (min (k : ℤ) ((n : ℤ) - (k : ℤ))).toNat = min k (n - k) := by omega
  rw [hk']
  obtain ⟨⟨hpos, hgcd⟩, hval⟩ := binomFold_spec (n : ℤ) (min k (n - k))
  push_cast at hval
  have hdesc : (∏ j ∈ Finset.range (min k (n - k)), ((n : ℚ) - j)) =
      (n.descFactorial (min k (n - k)) : ℚ) := by
    rw [Nat.descFactorial_eq_prod_range, Nat.cast_prod]
    refine Finset.prod_congr rfl (fun j hj => ?_)
    rw [Finset.mem_range] at hj
    rw [Nat.cast_sub (by omega : j ≤ n)]
  have hf0 : (((min k (n - k)).factorial : ℕ) : ℚ) ≠ 0 := by
    exact_mod_cast Nat.factorial_ne_zero _
  have hvq : fracQ ((List.range (min k (n - k))).foldl (binomStep (n : ℤ)) (1, 1)) =
      ((n.choose (min k (n - k)) : ℤ) : ℚ) := by
    rw [hval, hdesc, Nat.descFactorial_eq_factorial_mul_choose]
    push_cast
    rw [mul_comm, mul_div_assoc, div_self hf0, mul_one]
  obtain ⟨hd1, hn1⟩ := reduced_eq_int _ _ _ hpos hgcd hvq
  have heq : (List.range (min k (n - k))).foldl (binomStep (n : ℤ)) (1, 1) =
      ((n.choose (min k (n - k)) : ℤ), 1) := Prod.ext hn1 hd1
  rw [heq]
  show ((n.choose (min k (n - k)) : ℤ)).tdiv 1 = (n.choose k : ℤ)
  rw [Int.tdiv_one]
  rcases le_total k (n - k) with h | h
  · rw [min_eq_left h]
  · rw [min_eq_right h]
    exact_mod_cast congrArg (Nat.cast (R := ℤ)) (Nat.choose_symm hk)

/-! ### The consecutive-position closed form equals the general path -/

theorem prod_neg_range (m : ℕ) :
    ∏ j ∈ Finset.range m, (-((j : ℚ) + 1)) = (-1) ^ m * (m.factorial : ℚ) := by
  induction m with
  | zero => simp
  | succ m ih =>
    rw [Finset.prod_range_succ, ih, Nat.factorial_succ]
    push_cast
    ring

theorem range_erase_eq_union (n i : ℕ) (hi : i < n) :
    (Finset.range n).erase i = Finset.range i ∪ Finset.Ico (i + 1) n := by
  ext j
  simp only [Finset.mem_erase, Finset.mem_range, Finset.mem_union, Finset.mem_Ico]
  omega

theorem prod_range_i_sub (i : ℕ) :
    ∏ j ∈ Finset.range i, ((i : ℚ) - (j : ℚ)) = (i.factorial : ℚ) := by
  rw [← Finset.prod_range_reflect (fun j => ((i : ℚ) - (j : ℚ))) i]
  have hterm : ∀ j ∈ Finset.range i, ((i : ℚ) - ((i - 1 - j : ℕ) : ℚ)) = ((j : ℚ) + 1) := by
    intro j hj
    rw [Finset.mem_range] at hj
    have h1 : i - 1 - j = i - (j + 1) := by omega
    rw [h1, Nat.cast_sub (by omega : j + 1 ≤ i)]
    push_cast
    ring
  rw [Finset.prod_congr rfl hterm]
  calc ∏ j ∈ Finset.range i, ((j : ℚ) + 1)
      = ((∏ j ∈ Finset.range i, (j + 1) : ℕ) : ℚ) := by push_cast; rfl
    _ = (i.factorial : ℚ) := by rw [Finset.prod_range_add_one_eq_factorial]

theorem prod_Ico_i_sub (i n : ℕ) (hi : i < n) :
    ∏ j ∈ Finset.Ico (i + 1) n, ((i : ℚ) - (j : ℚ)) =
      (-1) ^ (n - 1 - i) * ((n - 1 - i).factorial : ℚ) := by
  rw [Finset.prod_Ico_eq_prod_range]
  have hterm : ∀ k ∈ Finset.range (n - (i + 1)), ((i : ℚ) - ((i + 1 + k : ℕ) : ℚ)) =
      (-((k : ℚ) + 1)) := by
    intro k _
    push_cast
    ring
  rw [Finset.prod_congr rfl hterm, prod_neg_range]
  have hsz : n - (i + 1) = n - 1 - i := by omega
  rw [hsz]

/-- With positions `1..k`, the `i`-th Lagrange term at zero is
`(-1)^i * C(k, i+1) * y_i`. -/
theorem termQ_ratio_consecutive (sel : List (ℤ × ℤ)) (i : ℕ) (hi : i < sel.length)
    (hpos : ∀ j < sel.length, posAt sel j = (j : ℤ) + 1) :
    termQ sel 0 i =
      (-1 : ℚ) ^ i * (sel.length.choose (i + 1) : ℚ) * (valAt sel i : ℚ) := by
  have hi' : i ∈ Finset.range sel.length := Finset.mem_range.mpr hi
  have hAZ : termNum sel 0 i = ∏ j ∈ (Finset.range sel.length).erase i, (-((j : ℤ) + 1)) := by
    unfold termNum
    refine Finset.prod_congr rfl (fun j hj => ?_)
    rw [Finset.mem_erase, Finset.mem_range] at hj
    rw [hpos j hj.2]
    ring
  have hDZ : termDen sel i = ∏ j ∈ (Finset.range sel.length).erase i, ((i : ℤ) - (j : ℤ)) := by
    unfold termDen
    refine Finset.prod_congr rfl (fun j hj => ?_)
    rw [Finset.mem_erase, Finset.mem_range] at hj
    rw [hpos j hj.2, hpos i hi]
    ring
  -- the numerator product, over ℚ
  have hA : ((termNum sel 0 i : ℤ) : ℚ) =
      ∏ j ∈ (Finset.range sel.length).erase i, (-((j : ℚ) + 1)) := by
    rw [hAZ]
    push_cast
    rfl
  have hD : ((termDen sel i : ℤ) : ℚ) =
      ∏ j ∈ (Finset.range sel.length).erase i, ((i : ℚ) - (j : ℚ)) := by
    rw [hDZ]
    push_cast
    rfl
  -- closed forms of the two products
  have hAfull : (∏ j ∈ (Finset.range sel.length).erase i, (-((j : ℚ) + 1))) * (-((i : ℚ) + 1)) =
      (-1) ^ sel.length * (sel.length.factorial : ℚ) := by
    rw [Finset.prod_erase_mul _ _ hi']
    exact prod_neg_range sel.length
  have hdisj : Disjoint (Finset.range i) (Finset.Ico (i + 1) sel.length) := by
    rw [Finset.disjoint_left]
    intro a ha hb
    rw [Finset.mem_range] at ha
    rw [Finset.mem_Ico] at hb
    omega
  have hDfull : (∏ j ∈ (Finset.range sel.length).erase i, ((i : ℚ) - (j : ℚ))) =
      (i.factorial : ℚ) * ((-1) ^ (sel.length - 1 - i) * ((sel.length - 1 - i).factorial : ℚ)) := by
    rw [range_erase_eq_union sel.length i hi, Finset.prod_union hdisj, prod_range_i_sub,
      prod_Ico_i_sub i sel.length hi]
  -- the target ratio identity
  have hsucc : i + 1 ≤ sel.length := hi
  have hchoose : ((sel.length.choose (i + 1) : ℕ) : ℚ) * (((i + 1).factorial : ℕ) : ℚ) *
      (((sel.length - (i + 1)).factorial : ℕ) : ℚ) = ((sel.length.factorial : ℕ) : ℚ) := by
    exact_mod_cast congrArg (Nat.cast (R := ℚ))
      (Nat.choose_mul_factorial_mul_factorial hsucc)
  have hsub : sel.length - (i + 1) = sel.length - 1 - i := by omega
  have hexp : (sel.length - 1 - i) + (i + 1) = sel.length := by omega
  have hsign : (-1 : ℚ) ^ sel.length = (-1) ^ (sel.length - 1 - i) * (-1) ^ (i + 1) := by
    rw [← pow_add, hexp]
  have hABval : ((-1 : ℚ) ^ i * (sel.length.choose (i + 1) : ℚ) *
        (((i.factorial : ℕ) : ℚ) * ((-1) ^ (sel.length - 1 - i) *
          ((sel.length - 1 - i).factorial : ℚ)))) * (-((i : ℚ) + 1)) =
      (-1) ^ sel.length * (sel.length.factorial : ℚ) := by
    rw [hsign]
    rw [hsub] at hchoose
    have hfs : (((i + 1).factorial : ℕ) : ℚ) = ((i : ℚ) + 1) * ((i.factorial : ℕ) : ℚ) := by
      rw [Nat.factorial_succ]
      push_cast
      ring
    rw [hfs] at hchoose
    calc ((-1 : ℚ) ^ i * (sel.length.choose (i + 1) : ℚ) *
          (((i.factorial : ℕ) : ℚ) * ((-1) ^ (sel.length - 1 - i) *
            ((sel.length - 1 - i).factorial : ℚ)))) * (-((i : ℚ) + 1))
        = ((-1 : ℚ) ^ i * -1) * (-1) ^ (sel.length - 1 - i) *
            ((sel.length.choose (i + 1) : ℚ) * (((i : ℚ) + 1) * ((i.factorial : ℕ) : ℚ)) *
              ((sel.length - 1 - i).factorial : ℚ)) := by ring
      _ = (-1) ^ (sel.length - 1 - i) * (-1) ^ (i + 1) * (sel.length.factorial : ℚ) := by
          rw [hchoose]
          ring
  -- cancel the common nonzero factor `-(i+1)`
  have hne : (-((i : ℚ) + 1)) ≠ 0 := by
    intro hzero
    have : ((i : ℚ) + 1) = 0 := by linarith [neg_eq_zero.mp hzero]
    have hp : (0 : ℚ) < (i : ℚ) + 1 := by positivity
    linarith
  have hAeq : ((termNum sel 0 i : ℤ) : ℚ) =
      (-1 : ℚ) ^ i * (sel.length.choose (i + 1) : ℚ) *
        (((i.factorial : ℕ) : ℚ) * ((-1) ^ (sel.length - 1 - i) *
          ((sel.length - 1 - i).factorial : ℚ))) := by
    apply mul_right_cancel₀ hne
    rw [hA, hAfull, hABval]
  have hDne : ((termDen sel i : ℤ) : ℚ) ≠ 0 := by
    rw [hD, hDfull]
    have h1 : ((i.factorial : ℕ) : ℚ) ≠ 0 := by exact_mod_cast Nat.factorial_ne_zero i
    have h2 : (((sel.length - 1 - i).factorial : ℕ) : ℚ) ≠ 0 := by
      exact_mod_cast Nat.factorial_ne_zero _
    have h3 : ((-1 : ℚ) ^ (sel.length - 1 - i)) ≠ 0 := by
      apply pow_ne_zero
      norm_num
    exact mul_ne_zero h1 (mul_ne_zero h3 h2)
  unfold termQ
  rw [div_eq_iff hDne]
  push_cast
  rw [show ((termNum sel 0 i : ℤ) : ℚ) * (valAt sel i : ℚ) =
      (valAt sel i : ℚ) * ((termNum sel 0 i : ℤ) : ℚ) from mul_comm _ _]
  rw [hAeq, hD, hDfull]
  ring

/-- `consecutiveSum` written with `(-1)^i` and `Nat.choose`. -/
theorem consecutiveSum_eq_choose_sum (sel : List (ℤ × ℤ)) :
    consecutiveSum sel sel.length =
      ∑ i ∈ Finset.range sel.length,
        (-1 : ℤ) ^ i * (sel.length.choose (i + 1) : ℤ) * valAt sel i := by
  unfold consecutiveSum
  refine Finset.sum_congr rfl (fun i hi => ?_)
  rw [Finset.mem_range] at hi
  have hcast : ((i + 1 : ℕ) : ℤ) = (i : ℤ) + 1 := by push_cast; ring
  rw [← hcast, binomBigInt_eq_choose sel.length (i + 1) hi]
  congr 1
  congr 1
  rcases Nat.even_or_odd i with he | ho
  · rw [if_pos (Nat.even_iff.mp he), he.neg_one_pow]
  · have h1 : i % 2 = 1 := Nat.odd_iff.mp ho
    rw [if_neg (by omega), ho.neg_one_pow]

/-- On positions `1..k`, the general fraction accumulation returns exactly the
closed-form consecutive sum, over denominator 1. -/
theorem lagrangeSumLoop_consecutive (sel : List (ℤ × ℤ))
    (hpos : ∀ j < sel.length, posAt sel j = (j : ℤ) + 1) :
    lagrangeSumLoop sel 0 = .ok (consecutiveSum sel sel.length, 1) := by
  have hdist : ∀ a < sel.length, ∀ b < sel.length, a < b → posAt sel a ≠ posAt sel b := by
    intro a ha b hb hab
    rw [hpos a ha, hpos b hb]
    intro hcontra
    omega
  obtain ⟨p, hp, hred, hval⟩ := lagrangeSumLoop_ok sel 0 hdist
  have hvq : fracQ p = ((consecutiveSum sel sel.length : ℤ) : ℚ) := by
    rw [hval,
      Finset.sum_congr rfl
        (fun i hi => termQ_ratio_consecutive sel i (Finset.mem_range.mp hi) hpos),
      consecutiveSum_eq_choose_sum]
    push_cast
    rfl
  obtain ⟨hd1, hn1⟩ := reduced_eq_int p.1 p.2 (consecutiveSum sel sel.length) hred.1 hred.2 hvq
  rw [hp]
  exact congrArg Except.ok (Prod.ext hn1 hd1)

theorem hasDuplicateX_eq_false (sel : List (ℤ × ℤ))
    (hdist : ∀ a < sel.length, ∀ b < sel.length, a < b → posAt sel a ≠ posAt sel b) :
    hasDuplicateX sel = false := by
  rw [hasDuplicateX, decide_eq_false_iff_not]
  rintro ⟨i, hi, j, hj, hij, he⟩
  exact hdist i hi j hj hij he

theorem isConsecutive_iff (sel : List (ℤ × ℤ)) :
    isConsecutive sel = true ↔ ∀ i < sel.length, posAt sel i = (i : ℤ) + 1 := by
  rw [isConsecutive]
  exact decide_eq_true_iff

/-- Central case analysis of `lagrangeConstantAtZero` on enough points with
pairwise-distinct positions: the accumulated fraction is a reduced pair
representing the exact Lagrange sum at zero, and the function returns its
numerator when the denominator is 1 and the non-integer error otherwise. -/
theorem lagrangeConstantAtZero_cases (points : List (ℤ × ℤ)) (k : ℕ)
    (hlen : (points.take k).length = k)
    (hdist : ∀ a < (points.take k).length, ∀ b < (points.take k).length, a < b →
      posAt (points.take k) a ≠ posAt (points.take k) b) :
    ∃ n d, lagrangeSumLoop (points.take k) 0 = .ok (n, d) ∧ Reduced (n, d) ∧
      fracQ (n, d) = ∑ i ∈ Finset.range (points.take k).length, termQ (points.take k) 0 i ∧
      (d = 1 → lagrangeConstantAtZero points k = .ok n) ∧
      (d ≠ 1 → lagrangeConstantAtZero points k = .error .nonInteger) := by
  have hnotlt : ¬(points.take k).length < k := by omega
  have hdup : hasDuplicateX (points.take k) = false := hasDuplicateX_eq_false _ hdist
  obtain ⟨⟨pn, pd⟩, hp, hred, hval⟩ := lagrangeSumLoop_ok (points.take k) 0 hdist
  refine ⟨pn, pd, hp, hred, hval, ?_, ?_⟩
  · intro hd1
    cases hcons : isConsecutive (points.take k) with
    | true =>
      have hpos := (isConsecutive_iff _).mp hcons
      have hloop := lagrangeSumLoop_consecutive _ hpos
      rw [hp] at hloop
      have hpeq := (Except.ok.injEq _ _).mp hloop
      have hn : pn = consecutiveSum (points.take k) (points.take k).length :=
        congrArg Prod.fst hpeq
      simp only [lagrangeConstantAtZero, if_neg hnotlt, hdup, Bool.false_eq_true, if_false,
        hcons, if_true]
      rw [hn, hlen]
    | false =>
      have hmod : pn.tmod pd = 0 := (reduced_tmod_eq_zero pn pd hred.1 hred.2).mpr hd1
      simp only [lagrangeConstantAtZero, if_neg hnotlt, hdup, Bool.false_eq_true, if_false,
        hcons, hp]
      simp [hmod, hd1]
  · intro hdne
    cases hcons : isConsecutive (points.take k) with
    | true =>
      exfalso
      have hpos := (isConsecutive_iff _).mp hcons
      have hloop := lagrangeSumLoop_consecutive _ hpos
      rw [hp] at hloop
      exact hdne (congrArg Prod.snd ((Except.ok.injEq _ _).mp hloop))
    | false =>
      have hmod : ¬pn.tmod pd = 0 := fun h =>
        hdne ((reduced_tmod_eq_zero pn pd hred.1 hred.2).mp h)
      simp only [lagrangeConstantAtZero, if_neg hnotlt, hdup, Bool.false_eq_true, if_false,
        hcons, hp]
      simp [hmod]

/-! ### Lemmas about `lagrangeEvaluate`, the error branches, sorting and
the solve pipeline -/

theorem evalPoly_zero (c : List ℤ) : evalPoly c 0 = c.getD 0 0 := by
  unfold evalPoly
  cases c with
  | nil => simp
  | cons a t =>
    rw [List.length_cons, Finset.sum_range_succ']
    have hz : ∀ i ∈ Finset.range t.length, (a :: t).getD (i + 1) 0 * (0 : ℤ) ^ (i + 1) = 0 := by
      intro i _
      rw [zero_pow (Nat.succ_ne_zero i), mul_zero]
    rw [Finset.sum_congr rfl hz]
    simp

/-- `lagrangeEvaluate` never fails when the selected positions are pairwise
distinct, whatever the evaluation position. -/
theorem lagrangeEvaluate_ok (points : List (ℤ × ℤ)) (k : ℕ) (xEval : ℤ)
    (hdist : ∀ a < (points.take k).length, ∀ b < (points.take k).length, a < b →
      posAt (points.take k) a ≠ posAt (points.take k) b) :
    ∃ r, lagrangeEvaluate points k xEval = .ok r := by
  obtain ⟨⟨pn, pd⟩, hp, hred, hval⟩ := lagrangeSumLoop_ok (points.take k) xEval hdist
  by_cases hmod : pn.tmod pd = 0
  · exact ⟨.int (pn.tdiv pd), by simp only [lagrangeEvaluate, hp]; simp [hmod]⟩
  · exact ⟨.frac pn pd, by simp only [lagrangeEvaluate, hp]; simp [hmod]⟩

/-- How `lagrangeEvaluate` reports the final reduced fraction: an integer when
the denominator is 1, the fraction itself otherwise. -/
theorem lagrangeEvaluate_cases (points : List (ℤ × ℤ)) (k : ℕ) (pn pd : ℤ)
    (hred : Reduced (pn, pd))
    (hp : lagrangeSumLoop (points.take k) 0 = .ok (pn, pd)) :
    (pd = 1 → lagrangeEvaluate points k 0 = .ok (.int pn)) ∧
    (pd ≠ 1 → lagrangeEvaluate points k 0 = .ok (.frac pn pd)) := by
  constructor
  · intro hd1
    have hmod : pn.tmod pd = 0 := (reduced_tmod_eq_zero pn pd hred.1 hred.2).mpr hd1
    simp only [lagrangeEvaluate, hp]
    simp [hmod, hd1]
  · intro hdne
    have hmod : ¬pn.tmod pd = 0 := fun h =>
      hdne ((reduced_tmod_eq_zero pn pd hred.1 hred.2).mp h)
    simp only [lagrangeEvaluate, hp]
    simp [hmod]

theorem lagrangeConstantAtZero_short (points : List (ℤ × ℤ)) (k : ℕ)
    (h : points.length < k) : lagrangeConstantAtZero points k = .error .needKPoints := by
  have hlt : (points.take k).length < k := by
    rw [List.length_take]
    omega
  simp only [lagrangeConstantAtZero, if_pos hlt]

theorem lagrangeConstantAtZero_dup (points : List (ℤ × ℤ)) (k : ℕ)
    (hk : k ≤ points.length)
    (hdup : ∃ i < k, ∃ j < k, i < j ∧ posAt (points.take k) i = posAt (points.take k) j) :
    lagrangeConstantAtZero points k = .error .duplicateX := by
  have hlen : (points.take k).length = k := by
    rw [List.length_take]
    omega
  have hnotlt : ¬(points.take k).length < k := by omega
  have hb : hasDuplicateX (points.take k) = true := by
    rw [hasDuplicateX, decide_eq_true_iff]
    obtain ⟨i, hi, j, hj, hij, he⟩ := hdup
    exact ⟨i, by omega, j, by omega, hij, he⟩
  simp only [lagrangeConstantAtZero, if_neg hnotlt, hb, if_true]

/-- `lagrangeConstantAtZero` never reports the insufficient-points error of
`solvePolynomial` (its own too-few-points message is distinct). -/
theorem lagrangeConstantAtZero_ne_insufficient (points : List (ℤ × ℤ)) (k : ℕ) :
    lagrangeConstantAtZero points k ≠ .error .insufficientPoints := by
  simp only [lagrangeConstantAtZero]
  split
  · simp
  · split
    · simp
    · split
      · simp
      · cases hloop : lagrangeSumLoop (points.take k) 0 with
        | error e =>
          have he := lagrangeSumAux_error (points.take k) 0
            (List.range (points.take k).length) (0, 1) e hloop
          simp [hloop, he]
        | ok p =>
          obtain ⟨pn, pd⟩ := p
          by_cases hmod : pn.tmod pd ≠ 0 <;> simp [hloop, hmod]

theorem lagrangeConstantAtZero_congr_take (p1 p2 : List (ℤ × ℤ)) (k : ℕ)
    (h : p1.take k = p2.take k) :
    lagrangeConstantAtZero p1 k = lagrangeConstantAtZero p2 k := by
  unfold lagrangeConstantAtZero
  rw [h]

/-- The sorted point list is ascending by position. -/
theorem sortPoints_sorted (pts : List (ℤ × ℤ)) :
    List.Pairwise (fun a b : ℤ × ℤ => a.1 ≤ b.1) (sortPoints pts) :=
  List.sorted_insertionSort _ _

/-- Once decoding succeeded with at least `k` points, `solvePolynomial` is
the interpolation of the sorted points. -/
theorem solvePolynomial_eq (J : PolyInput) (pts : List (ℤ × ℤ))
    (hdec : decodePoints J = .ok pts) (hk : J.k ≤ pts.length) :
    solvePolynomial J = (lagrangeConstantAtZero (sortPoints pts) J.k).map
      (fun c => ⟨c, sortPoints pts, J.k⟩) := by
  simp only [solvePolynomial, hdec]
  rw [if_neg (not_lt.mpr hk)]
  cases hc : lagrangeConstantAtZero (sortPoints pts) J.k <;> simp [hc, Except.map]

theorem solvePolynomial_short (J : PolyInput) (pts : List (ℤ × ℤ))
    (hdec : decodePoints J = .ok pts) (hk : pts.length < J.k) :
    solvePolynomial J = .error .insufficientPoints := by
  simp only [solvePolynomial, hdec]
  rw [if_pos hk]

/-! ### Base decoding lemmas -/

theorem isValidDigit_iff (c : Char) (base : ℤ) :
    isValidDigit c base = true ↔ ∃ d, specDigit c = some d ∧ (d : ℤ) < base := by
  unfold isValidDigit
  cases hd : specDigit c with
  | some d => simp
  | none => simp

/-- Stepping the decode loop over a valid leading digit. -/
theorem baseToDecimalGo_cons_valid (base : ℤ) (c : Char) (rest : List Char) (r : ℤ)
    (d : ℕ) (hd : specDigit c = some d) (hdlt : (d : ℤ) < base) :
    baseToDecimalGo base (c :: rest) r = baseToDecimalGo base rest (r * base + (d : ℤ)) := by
  unfold specDigit at hd
  by_cases h09 : '0' ≤ (jsToLower c) ∧ (jsToLower c) ≤ '9'
  · rw [if_pos h09] at hd
    have hdv : (jsToLower c).toNat - '0'.toNat = d := Option.some.inj hd
    simp only [baseToDecimalGo, if_pos h09, hdv]
    rw [if_neg (by omega)]
  · rw [if_neg h09] at hd
    by_cases haz : 'a' ≤ (jsToLower c) ∧ (jsToLower c) ≤ 'z'
    · rw [if_pos haz] at hd
      have hdv : (jsToLower c).toNat - 'a'.toNat + 10 = d := Option.some.inj hd
      simp only [baseToDecimalGo, if_neg h09, if_pos haz, hdv]
      rw [if_neg (by omega)]
    · rw [if_neg haz] at hd
      exact absurd hd (by simp)

/-- Stepping the decode loop over an invalid leading character. -/
theorem baseToDecimalGo_cons_invalid (base : ℤ) (c : Char) (rest : List Char) (r : ℤ)
    (h : ¬isValidDigit c base = true) :
    baseToDecimalGo base (c :: rest) r = .error .invalidDigit := by
  rw [isValidDigit_iff] at h
  push_neg at h
  by_cases h09 : '0' ≤ (jsToLower c) ∧ (jsToLower c) ≤ '9'
  · have hd : specDigit c = some ((jsToLower c).toNat - '0'.toNat) := by
      unfold specDigit
      rw [if_pos h09]
    have hge := h _ hd
    simp only [baseToDecimalGo, if_pos h09]
    rw [if_pos (by omega)]
  · by_cases haz : 'a' ≤ (jsToLower c) ∧ (jsToLower c) ≤ 'z'
    · have hd : specDigit c = some ((jsToLower c).toNat - 'a'.toNat + 10) := by
        unfold specDigit
        rw [if_neg h09, if_pos haz]
      have hge := h _ hd
      simp only [baseToDecimalGo, if_neg h09, if_pos haz]
      rw [if_pos (by omega)]
    · simp only [baseToDecimalGo, if_neg h09, if_neg haz]

theorem specBaseValue_nil (base : ℤ) : specBaseValue [] base = 0 := by
  unfold specBaseValue
  simp

theorem specBaseValue_cons (c : Char) (rest : List Char) (base : ℤ) :
    specBaseValue (c :: rest) base =
      ((specDigit c).getD 0 : ℤ) * base ^ rest.length + specBaseValue rest base := by
  unfold specBaseValue
  rw [List.length_cons, Finset.sum_range_succ']
  simp only [List.getD_cons_succ, List.getD_cons_zero, Nat.add_sub_cancel, Nat.sub_zero]
  rw [add_comm]
  congr 1
  refine Finset.sum_congr rfl (fun i _ => ?_)
  have he : rest.length - (i + 1) = rest.length - 1 - i := by omega
  rw [he]

/-- The decode loop on all-valid digit strings: multiply-and-add
accumulation computes the positional value. -/
theorem baseToDecimalGo_ok (base : ℤ) (s : List Char) :
    ∀ r : ℤ, (∀ c ∈ s, isValidDigit c base = true) →
      baseToDecimalGo base s r = .ok (r * base ^ s.length + specBaseValue s base) := by
  induction s with
  | nil =>
    intro r _
    simp [baseToDecimalGo, specBaseValue_nil]
  | cons c rest ih =>
    intro r hvalid
    obtain ⟨d, hd, hdlt⟩ := (isValidDigit_iff c base).mp (hvalid c (List.mem_cons_self c rest))
    rw [baseToDecimalGo_cons_valid base c rest r d hd hdlt,
      ih _ (fun x hx => hvalid x (List.mem_cons_of_mem c hx))]
    congr 1
    rw [specBaseValue_cons, hd, Option.getD_some, List.length_cons, pow_succ]
    ring

/-- The decode loop fails (with the invalid-digit error) whenever some
character is not a valid digit. -/
theorem baseToDecimalGo_error_of_invalid (base : ℤ) (s : List Char) :
    ∀ r : ℤ, (∃ c ∈ s, ¬isValidDigit c base = true) →
      baseToDecimalGo base s r = .error .invalidDigit := by
  induction s with
  | nil =>
    rintro r ⟨c, hc, -⟩
    exact absurd hc (List.not_mem_nil c)
  | cons c rest ih =>
    rintro r ⟨x, hx, hxinv⟩
    by_cases hcv : isValidDigit c base = true
    · have hxr : x ∈ rest := by
        rcases List.mem_cons.mp hx with rfl | hxr
        · exact absurd hcv hxinv
        · exact hxr
      obtain ⟨d, hd, hdlt⟩ := (isValidDigit_iff c base).mp hcv
      rw [baseToDecimalGo_cons_valid base c rest r d hd hdlt]
      exact ih _ ⟨x, hxr, hxinv⟩
    · exact baseToDecimalGo_cons_invalid base c rest r hcv

/-- Any error of the decode loop is the invalid-digit error. -/
theorem baseToDecimalGo_error (base : ℤ) (s : List Char) :
    ∀ r e, baseToDecimalGo base s r = .error e → e = .invalidDigit := by
  induction s with
  | nil =>
    intro r e h
    exact absurd h (by simp [baseToDecimalGo])
  | cons c rest ih =>
    intro r e h
    by_cases hcv : isValidDigit c base = true
    · obtain ⟨d, hd, hdlt⟩ := (isValidDigit_iff c base).mp hcv
      rw [baseToDecimalGo_cons_valid base c rest r d hd hdlt] at h
      exact ih _ e h
    · rw [baseToDecimalGo_cons_invalid base c rest r hcv] at h
      exact (Except.error.injEq _ _).mp h.symm

/-- Digit values are nonnegative and so are positional values. -/
theorem specBaseValue_nonneg (s : List Char) (base : ℤ) (hb : 0 < base) :
    0 ≤ specBaseValue s base := by
  unfold specBaseValue
  refine Finset.sum_nonneg (fun i _ => ?_)
  have h1 : (0 : ℤ) ≤ ((specDigit (s.getD i ' ')).getD 0 : ℤ) := by positivity
  have h2 : (0 : ℤ) ≤ base ^ (s.length - 1 - i) := pow_nonneg (le_of_lt hb) _
  exact mul_nonneg h1 h2

/-! ### Claim theorems -/

/-- **C1** (counterexample): `solvePolynomial` does not implement the robust
consensus selection the claim describes.  On the input decoding to
(1,999),(2,4),(3,9),(4,16),(5,25) with `k = 3`, the consensus selector
(modelled from the spec) returns constant term 0 — the model through
points 2,3,4 is `x^2`, scoring 4 inliers, while every subset containing
point 1 scores only 3 — whereas the code interpolates the three
smallest-position points and returns 2994. -/
theorem C1_counterexample :
    decodePoints divergenceInput = .ok [(1, 999), (2, 4), (3, 9), (4, 16), (5, 25)] ∧
    (solvePolynomial divergenceInput).map SolveResult.constantTerm = .ok 2994 ∧
    consensusConstantTerm [(1, 999), (2, 4), (3, 9), (4, 16), (5, 25)] 3 = some 0 ∧
    (2994 : ℤ) ≠ 0 :=
  ⟨rfl, rfl, rfl, by decide⟩

/-- **C1** (amended): for every input decoding to at least `k` points, the
solve operation performs no subset search: it returns the Lagrange-at-zero
interpolation of the `k` smallest-position points.  On the spec's example
input (values 4, 7, 12, 39 at indices 1, 2, 3, 6, of which index 6 is beyond
`n = 4` and hence skipped by the decoding loop) it returns constant term 3,
and that model indeed scores 4 on the full four-point list. -/
theorem C1_amended :
    (∀ (J : PolyInput) (pts : List (ℤ × ℤ)), decodePoints J = .ok pts →
      J.k ≤ pts.length →
      solvePolynomial J = (lagrangeConstantAtZero (sortPoints pts) J.k).map
        (fun c => ⟨c, sortPoints pts, J.k⟩)) ∧
    (solvePolynomial testcase1Input).map SolveResult.constantTerm = .ok 3 ∧
    consensusScore [(1, 4), (2, 7), (3, 12), (6, 39)] [(1, 4), (2, 7), (3, 12)] = 4 :=
  ⟨solvePolynomial_eq, rfl, rfl⟩

theorem C1_amended_witness :
    decodePoints testcase1Input = .ok [(1, 4), (2, 7), (3, 12)] ∧
    testcase1Input.k ≤ ([(1, 4), (2, 7), (3, 12)] : List (ℤ × ℤ)).length ∧
    solvePolynomial testcase1Input =
      (lagrangeConstantAtZero (sortPoints [(1, 4), (2, 7), (3, 12)]) testcase1Input.k).map
        (fun c => ⟨c, sortPoints [(1, 4), (2, 7), (3, 12)], testcase1Input.k⟩) :=
  ⟨rfl, by decide, C1_amended.1 testcase1Input [(1, 4), (2, 7), (3, 12)] rfl (by decide)⟩

/-- **C2**: on `k` points with pairwise-distinct positions whose values come
from an integer-coefficient polynomial of degree `< k` (coefficient list `c`
with `c.length ≤ k`, coefficient `i` of `x^i`), `lagrangeConstantAtZero`
returns exactly that polynomial's constant term. -/
theorem C2_lagrange_constant_term (pts : List (ℤ × ℤ)) (k : ℕ) (c : List ℤ)
    (hlen : pts.length = k) (hc : c.length ≤ k)
    (hdist : ∀ i < k, ∀ j < k, i < j → posAt pts i ≠ posAt pts j)
    (hval : ∀ i < k, valAt pts i = evalPoly c (posAt pts i)) :
    lagrangeConstantAtZero pts k = .ok (c.getD 0 0) := by
  have htake : pts.take k = pts := List.take_of_length_le (le_of_eq hlen)
  have hlen' : (pts.take k).length = k := by rw [htake, hlen]
  have hdist' : ∀ a < (pts.take k).length, ∀ b < (pts.take k).length, a < b →
      posAt (pts.take k) a ≠ posAt (pts.take k) b := by
    rw [htake, hlen]
    exact hdist
  have hval' : ∀ i < (pts.take k).length, valAt (pts.take k) i =
      evalPoly c (posAt (pts.take k) i) := by
    rw [htake, hlen]
    exact hval
  obtain ⟨n, d, hloop, hred, hfq, hok, -⟩ := lagrangeConstantAtZero_cases pts k hlen' hdist'
  have hsum := sum_termQ_eq_evalPoly (pts.take k) c (by omega) hdist' hval'
  have hint : ((n : ℚ)) / ((d : ℚ)) = ((evalPoly c 0 : ℤ) : ℚ) := by
    have : fracQ (n, d) = ((evalPoly c 0 : ℤ) : ℚ) := by rw [hfq, hsum]
    exact this
  obtain ⟨hd1, hn⟩ := reduced_eq_int n d (evalPoly c 0) hred.1 hred.2 hint
  rw [hok hd1, hn, evalPoly_zero]

theorem C2_witness :
    ([(1, 4), (3, 12), (6, 39)] : List (ℤ × ℤ)).length = 3 ∧
    ([3, 0, 1] : List ℤ).length ≤ 3 ∧
    (∀ i < 3, ∀ j < 3, i < j →
      posAt [(1, 4), (3, 12), (6, 39)] i ≠ posAt [(1, 4), (3, 12), (6, 39)] j) ∧
    (∀ i < 3, valAt [(1, 4), (3, 12), (6, 39)] i =
      evalPoly [3, 0, 1] (posAt [(1, 4), (3, 12), (6, 39)] i)) ∧
    lagrangeConstantAtZero [(1, 4), (3, 12), (6, 39)] 3 = .ok 3 :=
  ⟨rfl, by decide, by decide, by decide,
    C2_lagrange_constant_term [(1, 4), (3, 12), (6, 39)] 3 [3, 0, 1] rfl (by decide)
      (by decide) (by decide)⟩

/-- **C3**: when the first `k` positions are exactly `1..k` in order, the
closed-form consecutive sum is an exact integer equal to what the general
Lagrange-at-zero fraction loop computes — the loop returns exactly that
integer over denominator 1 — and `lagrangeConstantAtZero` returns it. -/
theorem C3_consecutive_equals_general (pts : List (ℤ × ℤ)) (k : ℕ)
    (hlen : (pts.take k).length = k)
    (hcons : ∀ i < k, posAt (pts.take k) i = (i : ℤ) + 1) :
    lagrangeSumLoop (pts.take k) 0 = .ok (consecutiveSum (pts.take k) k, 1) ∧
    lagrangeConstantAtZero pts k = .ok (consecutiveSum (pts.take k) k) := by
  have hcons' : ∀ i < (pts.take k).length, posAt (pts.take k) i = (i : ℤ) + 1 := by
    rw [hlen]
    exact hcons
  have hloop := lagrangeSumLoop_consecutive (pts.take k) hcons'
  rw [hlen] at hloop
  refine ⟨hloop, ?_⟩
  have hdist : ∀ a < (pts.take k).length, ∀ b < (pts.take k).length, a < b →
      posAt (pts.take k) a ≠ posAt (pts.take k) b := by
    intro a ha b hb hab
    rw [hcons' a ha, hcons' b hb]
    intro hcontra
    omega
  obtain ⟨n, d, hloop2, hred, hfq, hok, -⟩ := lagrangeConstantAtZero_cases pts k hlen hdist
  have hnd := (Except.ok.injEq _ _).mp (hloop.symm.trans hloop2)
  have hn : consecutiveSum (pts.take k) k = n := congrArg Prod.fst hnd
  have hd : (1 : ℤ) = d := congrArg Prod.snd hnd
  rw [hok hd.symm, hn]

theorem C3_witness :
    (([(1, 10), (2, 20), (3, 31)] : List (ℤ × ℤ)).take 3).length = 3 ∧
    (∀ i < 3, posAt (([(1, 10), (2, 20), (3, 31)] : List (ℤ × ℤ)).take 3) i = (i : ℤ) + 1) ∧
    lagrangeSumLoop (([(1, 10), (2, 20), (3, 31)] : List (ℤ × ℤ)).take 3) 0 =
      .ok (consecutiveSum (([(1, 10), (2, 20), (3, 31)] : List (ℤ × ℤ)).take 3) 3, 1) ∧
    lagrangeConstantAtZero [(1, 10), (2, 20), (3, 31)] 3 =
      .ok (consecutiveSum (([(1, 10), (2, 20), (3, 31)] : List (ℤ × ℤ)).take 3) 3) :=
  ⟨rfl, by decide, (C3_consecutive_equals_general [(1, 10), (2, 20), (3, 31)] 3 rfl (by decide)).1,
    (C3_consecutive_equals_general [(1, 10), (2, 20), (3, 31)] 3 rfl (by decide)).2⟩

/-- **C4**: every fraction produced by `simplifyFrac`, `addFrac` (on valid
inputs) and `mulFracBigInt` has strictly positive denominator and coprime
numerator/denominator, and constructing with denominator 0 fails (exactly
then) with the zero-denominator error. -/
theorem C4_fraction_invariants :
    (∀ n d : ℤ, d ≠ 0 → ∃ p, simplifyFrac n d = .ok p ∧ 0 < p.2 ∧ Int.gcd p.1 p.2 = 1) ∧
    (∀ n d : ℤ, (simplifyFrac n d = .error .zeroDenominator ↔ d = 0)) ∧
    (∀ n1 d1 n2 d2 : ℤ, d1 ≠ 0 → d2 ≠ 0 →
      ∃ p, addFrac n1 d1 n2 d2 = .ok p ∧ 0 < p.2 ∧ Int.gcd p.1 p.2 = 1) ∧
    (∀ n d m : ℤ, d ≠ 0 → ∃ p, mulFracBigInt n d m = .ok p ∧ 0 < p.2 ∧ Int.gcd p.1 p.2 = 1) := by
  refine ⟨?_, ?_, ?_, ?_⟩
  · intro n d hd
    obtain ⟨p, hp, hred, -⟩ := simplifyFrac_ok n d hd
    exact ⟨p, hp, hred.1, hred.2⟩
  · intro n d
    constructor
    · intro h
      exact ((simplifyFrac_error_iff n d _).mp h).1
    · intro h
      subst h
      exact simplifyFrac_zero n
  · intro n1 d1 n2 d2 h1 h2
    obtain ⟨p, hp, hred, -⟩ := addFrac_ok n1 d1 n2 d2 h1 h2
    exact ⟨p, hp, hred.1, hred.2⟩
  · intro n d m hd
    obtain ⟨p, hp, hred, -⟩ := mulFracBigInt_ok n d m hd
    exact ⟨p, hp, hred.1, hred.2⟩

theorem C4_witness :
    ((-6 : ℤ) ≠ 0 ∧
      ∃ p, simplifyFrac 4 (-6) = .ok p ∧ 0 < p.2 ∧ Int.gcd p.1 p.2 = 1) ∧
    (simplifyFrac 5 0 = .error .zeroDenominator ↔ (0 : ℤ) = 0) ∧
    ((2 : ℤ) ≠ 0 ∧ (3 : ℤ) ≠ 0 ∧
      ∃ p, addFrac 1 2 1 3 = .ok p ∧ 0 < p.2 ∧ Int.gcd p.1 p.2 = 1) ∧
    ((4 : ℤ) ≠ 0 ∧
      ∃ p, mulFracBigInt 3 4 2 = .ok p ∧ 0 < p.2 ∧ Int.gcd p.1 p.2 = 1) :=
  ⟨⟨by decide, C4_fraction_invariants.1 4 (-6) (by decide)⟩,
    C4_fraction_invariants.2.1 5 0,
    ⟨by decide, by decide, C4_fraction_invariants.2.2.1 1 2 1 3 (by decide) (by decide)⟩,
    ⟨by decide, C4_fraction_invariants.2.2.2 3 4 2 (by decide)⟩⟩

/-- **C5**: with at least `k` points whose first `k` positions are pairwise
distinct, the final accumulated Lagrange fraction is a reduced pair
`(n, d)` with `d > 0`; when `d ≠ 1` (non-integer) the constant-term
evaluation at zero fails with the non-integer error while the diagnostic
`lagrangeEvaluate` surfaces the fraction `n/d` without failing; when `d = 1`
both return the exact integer `n`; and `lagrangeEvaluate` never fails at any
evaluation position. -/
theorem C5_non_integer_handling (points : List (ℤ × ℤ)) (k : ℕ)
    (hk : k ≤ points.length)
    (hdist : ∀ a < k, ∀ b < k, a < b →
      posAt (points.take k) a ≠ posAt (points.take k) b) :
    (∀ xEval : ℤ, ∃ r, lagrangeEvaluate points k xEval = .ok r) ∧
    ∃ n d : ℤ, lagrangeSumLoop (points.take k) 0 = .ok (n, d) ∧ 0 < d ∧
      (d = 1 → lagrangeConstantAtZero points k = .ok n ∧
        lagrangeEvaluate points k 0 = .ok (.int n)) ∧
      (d ≠ 1 → lagrangeConstantAtZero points k = .error .nonInteger ∧
        lagrangeEvaluate points k 0 = .ok (.frac n d)) := by
  have hlen : (points.take k).length = k := by
    rw [List.length_take]
    omega
  have hdist' : ∀ a < (points.take k).length, ∀ b < (points.take k).length, a < b →
      posAt (points.take k) a ≠ posAt (points.take k) b := by
    rw [hlen]
    exact hdist
  constructor
  · intro xEval
    exact lagrangeEvaluate_ok points k xEval hdist'
  · obtain ⟨n, d, hloop, hred, -, hok, herr⟩ := lagrangeConstantAtZero_cases points k hlen hdist'
    have hev := lagrangeEvaluate_cases points k n d hred hloop
    exact ⟨n, d, hloop, hred.1,
      fun h1 => ⟨hok h1, hev.1 h1⟩, fun h1 => ⟨herr h1, hev.2 h1⟩⟩

theorem C5_witness :
    (3 : ℕ) ≤ ([(2, 3), (4, 16), (5, 25)] : List (ℤ × ℤ)).length ∧
    (∀ a < 3, ∀ b < 3, a < b →
      posAt (([(2, 3), (4, 16), (5, 25)] : List (ℤ × ℤ)).take 3) a ≠
        posAt (([(2, 3), (4, 16), (5, 25)] : List (ℤ × ℤ)).take 3) b) ∧
    ((∀ xEval : ℤ, ∃ r, lagrangeEvaluate [(2, 3), (4, 16), (5, 25)] 3 xEval = .ok r) ∧
      ∃ n d : ℤ, lagrangeSumLoop (([(2, 3), (4, 16), (5, 25)] : List (ℤ × ℤ)).take 3) 0 =
          .ok (n, d) ∧ 0 < d ∧
        (d = 1 → lagrangeConstantAtZero [(2, 3), (4, 16), (5, 25)] 3 = .ok n ∧
          lagrangeEvaluate [(2, 3), (4, 16), (5, 25)] 3 0 = .ok (.int n)) ∧
        (d ≠ 1 → lagrangeConstantAtZero [(2, 3), (4, 16), (5, 25)] 3 =
            .error .nonInteger ∧
          lagrangeEvaluate [(2, 3), (4, 16), (5, 25)] 3 0 = .ok (.frac n d))) :=
  ⟨by decide, by decide,
    C5_non_integer_handling [(2, 3), (4, 16), (5, 25)] 3 (by decide) (by decide)⟩

/-- **C6**: `lagrangeConstantAtZero` fails with its too-few-points error
whenever fewer than `k` points are supplied, and — before any interpolation
arithmetic — with the duplicate-position error whenever two of the first `k`
points share a position. -/
theorem C6_precondition_checks (points : List (ℤ × ℤ)) (k : ℕ) :
    (points.length < k → lagrangeConstantAtZero points k = .error .needKPoints) ∧
    (k ≤ points.length →
      (∃ i < k, ∃ j < k, i < j ∧ posAt (points.take k) i = posAt (points.take k) j) →
      lagrangeConstantAtZero points k = .error .duplicateX) :=
  ⟨lagrangeConstantAtZero_short points k,
    fun hk hdup => lagrangeConstantAtZero_dup points k hk hdup⟩

theorem C6_witness :
    (([(7, 1)] : List (ℤ × ℤ)).length < 2 →
      lagrangeConstantAtZero [(7, 1)] 2 = .error .needKPoints) ∧
    lagrangeConstantAtZero [(7, 1)] 2 = .error .needKPoints ∧
    (2 : ℕ) ≤ ([(5, 1), (5, 2)] : List (ℤ × ℤ)).length ∧
    lagrangeConstantAtZero [(5, 1), (5, 2)] 2 = .error .duplicateX :=
  ⟨(C6_precondition_checks [(7, 1)] 2).1,
    (C6_precondition_checks [(7, 1)] 2).1 (by decide),
    by decide,
    (C6_precondition_checks [(5, 1), (5, 2)] 2).2 (by decide)
      ⟨0, by decide, 1, by decide, by decide, by decide⟩⟩

/-- **C7**: for every base in `[2, 36]` and every string of valid digits for
that base, the decoder succeeds and returns the nonnegative positional value
of the digits (the multiply-by-base-and-add accumulation); the empty string
decodes to zero. -/
theorem C7_base_decoding (s : List Char) (base : ℤ)
    (hb2 : 2 ≤ base) (hb36 : base ≤ 36)
    (hvalid : ∀ c ∈ s, isValidDigit c base = true) :
    baseToDecimal s base = .ok (specBaseValue s base) ∧
    0 ≤ specBaseValue s base ∧
    baseToDecimal [] base = .ok 0 := by
  have hnb : ¬(base < 2 ∨ 36 < base) := by omega
  refine ⟨?_, specBaseValue_nonneg s base (by omega), ?_⟩
  · unfold baseToDecimal
    rw [if_neg hnb, baseToDecimalGo_ok base s 0 hvalid]
    rw [zero_mul, zero_add]
  · unfold baseToDecimal
    rw [if_neg hnb]
    rfl

theorem C7_witness :
    (2 : ℤ) ≤ 4 ∧ (4 : ℤ) ≤ 36 ∧
    (∀ c ∈ ['2', '1', '3'], isValidDigit c 4 = true) ∧
    (baseToDecimal ['2', '1', '3'] 4 = .ok (specBaseValue ['2', '1', '3'] 4) ∧
      0 ≤ specBaseValue ['2', '1', '3'] 4 ∧
      baseToDecimal [] 4 = .ok 0) :=
  ⟨by decide, by decide, by decide,
    C7_base_decoding ['2', '1', '3'] 4 (by decide) (by decide) (by decide)⟩

/-- **C8**: the decoder fails with the invalid-base error exactly when the
base is outside `[2, 36]`; within range it fails with the invalid-digit
error exactly when some character is not a valid digit for the base; and it
never fails when the base is in range and every character is valid. -/
theorem C8_base_decoder_errors (s : List Char) (base : ℤ) :
    (baseToDecimal s base = .error .invalidBase ↔ (base < 2 ∨ 36 < base)) ∧
    (2 ≤ base → base ≤ 36 →
      (baseToDecimal s base = .error .invalidDigit ↔
        ∃ c ∈ s, ¬isValidDigit c base = true)) ∧
    (2 ≤ base → base ≤ 36 → (∀ c ∈ s, isValidDigit c base = true) →
      ∃ v, baseToDecimal s base = .ok v) := by
  refine ⟨⟨?_, ?_⟩, fun h2 h36 => ⟨?_, ?_⟩, fun h2 h36 hvalid => ?_⟩
  · intro h
    by_contra hout
    unfold baseToDecimal at h
    rw [if_neg hout] at h
    have he := baseToDecimalGo_error base s 0 _ h
    exact absurd he (by decide)
  · intro h
    unfold baseToDecimal
    rw [if_pos h]
  · intro h
    by_contra hno
    push_neg at hno
    have hvalid : ∀ c ∈ s, isValidDigit c base = true := fun c hc => by
      by_contra hcv
      exact hcv (by simpa using hno c hc)
    unfold baseToDecimal at h
    rw [if_neg (by omega), baseToDecimalGo_ok base s 0 hvalid] at h
    exact absurd h (by simp)
  · intro hex
    unfold baseToDecimal
    rw [if_neg (by omega)]
    exact baseToDecimalGo_error_of_invalid base s 0 hex
  · refine ⟨0 * base ^ s.length + specBaseValue s base, ?_⟩
    unfold baseToDecimal
    rw [if_neg (by omega)]
    exact baseToDecimalGo_ok base s 0 hvalid

theorem C8_witness :
    (baseToDecimal ['z'] 40 = .error .invalidBase ↔ ((40 : ℤ) < 2 ∨ 36 < (40 : ℤ))) ∧
    (2 : ℤ) ≤ 16 ∧ (16 : ℤ) ≤ 36 ∧
    (baseToDecimal ['7', 'g'] 16 = .error .invalidDigit ↔
      ∃ c ∈ ['7', 'g'], ¬isValidDigit c 16 = true) ∧
    (∀ c ∈ ['7', 'f'], isValidDigit c 16 = true) ∧
    (∃ v, baseToDecimal ['7', 'f'] 16 = .ok v) ∧
    (∀ c ∈ ['\u212A'], isValidDigit c 21 = true) ∧
    (∃ v, baseToDecimal ['\u212A'] 21 = .ok v) :=
  ⟨(C8_base_decoder_errors ['z'] 40).1,
    by decide, by decide,
    (C8_base_decoder_errors ['7', 'g'] 16).2.1 (by decide) (by decide),
    by decide,
    (C8_base_decoder_errors ['7', 'f'] 16).2.2 (by decide) (by decide) (by decide),
    by decide,
    (C8_base_decoder_errors ['\u212A'] 21).2.2 (by decide) (by decide) (by decide)⟩

/-- **C9**: once the points decode successfully, `solvePolynomial` fails with
the insufficient-points error exactly when the number of decoded points is
below `k` — and never when it is at least `k`. -/
theorem C9_insufficient_points (J : PolyInput) (pts : List (ℤ × ℤ))
    (hdec : decodePoints J = .ok pts) :
    solvePolynomial J = .error .insufficientPoints ↔ pts.length < J.k := by
  constructor
  · intro h
    by_contra hk
    push_neg at hk
    rw [solvePolynomial_eq J pts hdec hk] at h
    cases hc : lagrangeConstantAtZero (sortPoints pts) J.k with
    | error e =>
      rw [hc] at h
      simp only [Except.map] at h
      have he : e = .insufficientPoints := (Except.error.injEq _ _).mp h
      exact lagrangeConstantAtZero_ne_insufficient (sortPoints pts) J.k (by rw [hc, he])
    | ok c =>
      rw [hc] at h
      simp [Except.map] at h
  · exact solvePolynomial_short J pts hdec

theorem C9_witness :
    decodePoints divergenceInput = .ok [(1, 999), (2, 4), (3, 9), (4, 16), (5, 25)] ∧
    (solvePolynomial divergenceInput = .error .insufficientPoints ↔
      ([(1, 999), (2, 4), (3, 9), (4, 16), (5, 25)] : List (ℤ × ℤ)).length <
        divergenceInput.k) :=
  ⟨rfl, C9_insufficient_points divergenceInput [(1, 999), (2, 4), (3, 9), (4, 16), (5, 25)] rfl⟩

/-- **C10**: the solve operation sorts the decoded points ascending by
position and interpolates only the `k` smallest-position points: two inputs
whose sorted decoded point lists agree on the first `k` entries (the values
of the remaining points being arbitrary) produce the same constant term. -/
theorem C10_first_k_sorted_points (J1 J2 : PolyInput) (p1 p2 : List (ℤ × ℤ))
    (hdec1 : decodePoints J1 = .ok p1) (hdec2 : decodePoints J2 = .ok p2)
    (hkeq : J1.k = J2.k)
    (hk1 : J1.k ≤ p1.length) (hk2 : J2.k ≤ p2.length)
    (htake : (sortPoints p1).take J1.k = (sortPoints p2).take J2.k) :
    List.Pairwise (fun a b : ℤ × ℤ => a.1 ≤ b.1) (sortPoints p1) ∧
    (solvePolynomial J1).map SolveResult.constantTerm =
      (solvePolynomial J2).map SolveResult.constantTerm := by
  refine ⟨sortPoints_sorted p1, ?_⟩
  rw [solvePolynomial_eq J1 p1 hdec1 hk1, solvePolynomial_eq J2 p2 hdec2 hk2]
  have hconst : lagrangeConstantAtZero (sortPoints p1) J1.k =
      lagrangeConstantAtZero (sortPoints p2) J2.k := by
    rw [hkeq] at htake ⊢
    exact lagrangeConstantAtZero_congr_take _ _ _ htake
  rw [hconst, hkeq]
  cases lagrangeConstantAtZero (sortPoints p2) J2.k <;> simp [Except.map]

theorem C10_witness :
    decodePoints extraPointInputA = .ok [(1, 4), (2, 7), (3, 12), (4, 99)] ∧
    decodePoints extraPointInputB = .ok [(1, 4), (2, 7), (3, 12), (4, 7)] ∧
    extraPointInputA.k = extraPointInputB.k ∧
    extraPointInputA.k ≤ 4 ∧ extraPointInputB.k ≤ 4 ∧
    (sortPoints [(1, 4), (2, 7), (3, 12), (4, 99)]).take extraPointInputA.k =
      (sortPoints [(1, 4), (2, 7), (3, 12), (4, 7)]).take extraPointInputB.k ∧
    (List.Pairwise (fun a b : ℤ × ℤ => a.1 ≤ b.1)
        (sortPoints [(1, 4), (2, 7), (3, 12), (4, 99)]) ∧
      (solvePolynomial extraPointInputA).map SolveResult.constantTerm =
        (solvePolynomial extraPointInputB).map SolveResult.constantTerm) :=
  ⟨rfl, rfl, rfl, by decide, by decide, by decide,
    C10_first_k_sorted_points extraPointInputA extraPointInputB
      [(1, 4), (2, 7), (3, 12), (4, 99)] [(1, 4), (2, 7), (3, 12), (4, 7)]
      rfl rfl rfl (by decide) (by decide) (by decide)⟩

end PolySolver
